import Mathlib

/-!
# A verification development for the Patience text-scoring pipeline

This file gives a shallow embedding, in Lean 4, of the core data-processing
functions of the pipeline: the chunked corpus transformer
(`Utils/file_process.py`), the sentence-splitting transform (`parse.py`), the
text cleaner (`Utils/text_cleaning.py`), the document-level aggregation and the
document-frequency calculator (`score.py`).  File contents are modelled as
`String`s (a missing file is `Option.none`), lists of lines as `List String`,
and Python dictionaries (which preserve insertion order) as association lists.

Conventions used throughout:
* Python's whitespace class (for `str.split()`, `str.strip()` and the regex
  class `\s`) is modelled by `pyWs`, covering the six ASCII whitespace
  characters; inputs are assumed to use only ASCII whitespace.
* Python's `str.split(sep)` / `str.join` / `str.strip` are modelled by
  char-list recursions with the same observable behaviour on those characters.
-/

/-! ## Basic Python string primitives -/

/-- The ASCII whitespace characters matched by Python's `str.split()`,
`str.strip()` and the regex class `\s`: space, tab, newline, carriage
return, vertical tab and form feed. -/
def pyWs (c : Char) : Bool :=
  c = ' ' || c = '\t' || c = '\n' || c = '\r' || c = Char.ofNat 11 || c = Char.ofNat 12

/-- Drop a trailing run of characters satisfying `p` (the right half of
Python's `str.strip`). -/
def dropTrail (p : Char → Bool) : List Char → List Char
  | [] => []
  | c :: cs =>
      match dropTrail p cs with
      | [] => if p c then [] else [c]
      | res => c :: res

/-- Python's `str.strip()` on the character list of a string: remove leading
and trailing whitespace. -/
def pyStripL (l : List Char) : List Char :=
  dropTrail pyWs (l.dropWhile pyWs)

/-- Python's `str.strip()`. -/
def pyStrip (s : String) : String := ⟨pyStripL s.data⟩

/-- Python's `str.strip("\n")`: remove leading and trailing newline characters
only (used by `parse.py` as `item[1].strip("\n")`). -/
def stripNewlines (s : String) : String :=
  ⟨dropTrail (· = '\n') (s.data.dropWhile (· = '\n'))⟩

/-- Python's `sep.join(xs)`. -/
def pyJoin (sep : String) : List String → String
  | [] => ""
  | [x] => x
  | x :: xs => x ++ sep ++ pyJoin sep xs

/-- Concatenation of a list of strings (no separator). -/
def strConcat (xs : List String) : String := xs.foldr (· ++ ·) ""

/-- Whitespace splitting, accumulator form: `cur` holds the (reversed)
characters of the token being scanned; a whitespace character closes the
current token, everything else extends it. -/
def splitWsAcc : List Char → List Char → List (List Char)
  | [], [] => []
  | [], cur => [cur.reverse]
  | c :: cs, cur =>
      if pyWs c then
        match cur with
        | [] => splitWsAcc cs []
        | _ :: _ => cur.reverse :: splitWsAcc cs []
      else splitWsAcc cs (c :: cur)

/-- Whitespace splitting of a character list: Python's `str.split()` yields
the maximal nonempty runs of non-whitespace characters. -/
def splitWsL (l : List Char) : List (List Char) := splitWsAcc l []

/-- Python's `str.split()` (split on whitespace runs, no empty tokens). -/
def pySplit (s : String) : List String := (splitWsL s.data).map (fun l => ⟨l⟩)

/-- Replace every occurrence of the character `a` by `b`; Python's
`str.replace` with a one-character pattern. -/
def pyReplaceChar (s : String) (a b : Char) : String :=
  ⟨s.data.map (fun c => if c = a then b else c)⟩

/-- Number of `'\n'` characters in a string. -/
def countNL (s : String) : Nat := s.data.count '\n'

/-- `line_counter` (`Utils/file_process.py`): the number of lines Python's
file iteration yields on a file with these contents — one line per `'\n'`,
plus a final unterminated line when the file does not end in `'\n'`. -/
def line_counter (s : String) : Nat :=
  s.data.count '\n' + (if s.data ≠ [] ∧ s.data.getLast? ≠ some '\n' then 1 else 0)

/-! ## `list_to_file` (`Utils/file_process.py`) -/

/-- The contents `list_to_file` (`Utils/file_process.py`) writes for a list:
each element has its `'\n'` and `'\r'` characters replaced by spaces and is
written on its own `'\n'`-terminated line. -/
def list_to_file_content (lst : List String) : String :=
  strConcat (lst.map (fun e => pyReplaceChar (pyReplaceChar e '\n' ' ') '\r' ' ' ++ "\n"))

/-! ### Lemmas for `list_to_file` -/

theorem pyReplaceChar_data (s : String) (a b : Char) :
    (pyReplaceChar s a b).data = s.data.map (fun c => if c = a then b else c) := rfl

theorem sanitized_no_newline (e : String) :
    (pyReplaceChar (pyReplaceChar e '\n' ' ') '\r' ' ').data.count '\n' = 0 := by
  rw [List.count_eq_zero]
  intro hc
  rcases List.mem_map.mp hc with ⟨d, hd, hdc⟩
  rcases List.mem_map.mp hd with ⟨d', _, hd'c⟩
  by_cases h1 : d' = '\n' <;> by_cases h2 : d = '\r' <;> simp [h1, h2] at hd'c hdc <;> simp_all

theorem strConcat_cons (x : String) (xs : List String) :
    strConcat (x :: xs) = x ++ strConcat xs := rfl

theorem newline_data : ("\n" : String).data = ['\n'] := rfl

/-- A concatenation of `'\n'`-terminated strings ends in `'\n'`. -/
theorem strConcat_getLast_nl (xs : List String)
    (hx : ∀ x ∈ xs, x.data.getLast? = some '\n') (hne : xs ≠ []) :
    (strConcat xs).data.getLast? = some '\n' := by
  induction xs with
  | nil => exact absurd rfl hne
  | cons x xs ih =>
      rw [strConcat_cons, String.data_append]
      cases hxs : xs with
      | nil =>
          subst hxs
          simpa [strConcat] using hx x (by simp)
      | cons y ys =>
          rw [hxs] at ih hx
          rw [List.getLast?_append_of_ne_nil]
          · exact ih (fun z hz => hx z (by simp [hz])) (by simp)
          · intro habs
            have := ih (fun z hz => hx z (by simp [hz])) (by simp)
            rw [habs] at this
            simp at this

/-- **C8** — For every list of values, `list_to_file` with `validate=True`
writes exactly one line per list element: embedded `'\n'`/`'\r'` characters
are replaced by spaces before writing, so `line_counter` on the written file
equals the length of the list and the final line-count assertion never fails. -/
theorem list_to_file_line_count (lst : List String) :
    line_counter (list_to_file_content lst) = lst.length := by
  have hcount : (list_to_file_content lst).data.count '\n' = lst.length := by
    induction lst with
    | nil => rfl
    | cons x xs ih =>
        simp only [list_to_file_content, List.map_cons, strConcat_cons, String.data_append,
          List.count_append] at ih ⊢
        rw [ih]
        have := sanitized_no_newline x
        simp [this]
        omega
  cases lst with
  | nil => rfl
  | cons x xs =>
      have hlast : (list_to_file_content (x :: xs)).data.getLast? = some '\n' := by
        apply strConcat_getLast_nl
        · intro z hz
          rcases List.mem_map.mp hz with ⟨e, _, he⟩
          rw [← he, String.data_append, newline_data]
          simp
        · simp [list_to_file_content]
      simp [line_counter, hcount, hlast]

/-! ## `process_large_file` (`Utils/file_process.py`)

The transformer reads `input_file` line by line in chunks of `chunk_size`
(via `itertools.zip_longest`, with the `None` padding of the final short
chunk filtered out), applies `function_name` to each (line, id) pair, joins
each chunk's outputs with `"\n"`, appends a final `"\n"`, and appends the two
strings to `output_file` and (when requested) `output_index_file`.

The filesystem slice the function touches is modelled by `FileState`: the
contents of the two output files, `none` standing for a missing file.  The
transform is `Option`-valued: `none` models the transform raising an
exception, which the chunk loop does not catch, so it aborts the run before
the current chunk is written.  The returned `Bool` is `true` for a completed
run and `false` for an aborted one (failed precondition assert, a
`StopIteration` from jumping past the end of the input, or a transform
exception); the returned `FileState` is the state of the two files when the
function returns or the exception escapes. -/

/-- The two output files of `process_large_file`; `none` = file absent. -/
structure FileState where
  outFile : Option String
  idxFile : Option String
deriving DecidableEq, Repr

/-- The `try: os.remove(...)` block of a fresh run (`start_index is None`).
`os.remove(output_file)` raises `OSError` when the file is absent, and the
`except OSError: pass` then skips the removal of `output_index_file` too. -/
def freshDelete (useIdx : Bool) (st : FileState) : FileState :=
  match st.outFile with
  | none => st
  | some _ => { outFile := none, idxFile := if useIdx then none else st.idxFile }

/-- Append to a file opened with mode `"a"`: the file is created when absent. -/
def appendFile (content : Option String) (s : String) : Option String :=
  some (content.getD "" ++ s)

/-- `"\n".join(output_lines) + "\n"` and `"\n".join(output_line_ids) + "\n"`
for one chunk's collected transform outputs. -/
def chunkStrings (outs : List (String × String)) : String × String :=
  (pyJoin "\n" (outs.map Prod.fst) ++ "\n", pyJoin "\n" (outs.map Prod.snd) ++ "\n")

/-- Run the transform over one chunk's (line, id) pairs, stopping at the
first exception (`none`), which the loop in `process_large_file` does not
catch. -/
def mapChunk (f : String → String → Option (String × String)) :
    List (String × String) → Option (List (String × String))
  | [] => some []
  | p :: ps =>
      match f p.1 p.2 with
      | none => none
      | some out =>
          match mapChunk f ps with
          | none => none
          | some outs => some (out :: outs)

/-- Split a list into consecutive chunks of `n` elements (final chunk short);
the chunking performed by `itertools.zip_longest(*[iter] * chunk_size)` with
the `None` padding filtered out.  `zip_longest()` of zero iterators
(`chunk_size = 0`) yields nothing. -/
def toChunks (n : Nat) : List α → List (List α)
  | [] => []
  | x :: xs =>
      if n = 0 then []
      else (x :: xs).take n :: toChunks n ((x :: xs).drop n)
termination_by l => l.length
decreasing_by
  rename_i hn
  simp only [List.length_drop, List.length_cons]
  omega

/-- The per-chunk (line, id) pairs of a run: the chunked input lines zipped
with the chunked identifier list (`zip` in the `for` header, `map` inside). -/
def buildChunks (c : Nat) (lines ids : List String) : List (List (String × String)) :=
  ((toChunks c lines).zip (toChunks c ids)).map (fun p => p.1.zip p.2)

/-- The chunk loop of `process_large_file`: process chunks in order, flushing
each chunk's joined outputs to the output files before the next chunk; a
transform exception escapes with nothing of the current chunk written. -/
def runChunks (f : String → String → Option (String × String)) (useIdx : Bool) :
    List (List (String × String)) → FileState → FileState × Bool
  | [], st => (st, true)
  | chunk :: rest, st =>
      match mapChunk f chunk with
      | none => (st, false)
      | some outs =>
          let strs := chunkStrings outs
          runChunks f useIdx rest
            { outFile := appendFile st.outFile strs.1,
              idxFile := if useIdx then appendFile st.idxFile strs.2 else st.idxFile }

/-- `process_large_file` (`Utils/file_process.py`).

* `inputLines` — the lines of `input_file` as Python's file iteration yields
  them; `inputIds` — the `input_file_ids` list; `useIdx` — whether
  `output_index_file` is not `None`.
* A fresh run (`start_index is None`) first removes existing outputs
  (`freshDelete`), then the precondition
  `line_counter(input_file) == len(input_file_ids)` is asserted; on failure
  the run aborts with nothing written.
* With `start_index = some s` the run appends to the existing outputs,
  skipping the first `s` input lines (`next(f_in)` raises `StopIteration`
  past the end — an abort) and slicing `input_file_ids[s:]`. -/
def process_large_file (inputLines inputIds : List String)
    (f : String → String → Option (String × String)) (useIdx : Bool)
    (chunk_size : Nat) (start_index : Option Nat) (st : FileState) : FileState × Bool :=
  let st1 := match start_index with
    | none => freshDelete useIdx st
    | some _ => st
  if inputLines.length ≠ inputIds.length then (st1, false)
  else
    match start_index with
    | none => runChunks f useIdx (buildChunks chunk_size inputLines inputIds) st1
    | some s =>
        if inputLines.length < s then (st1, false)
        else runChunks f useIdx
          (buildChunks chunk_size (inputLines.drop s) (inputIds.drop s)) st1

/-- `parse_line` (`parse.py`), parameterised by the spaCy sentence splitter
`split`, which returns the `(index, sentence_text)` pairs of
`sentence_split` — or `none` when `sentence_split` raises.  Returns the
lines printed by the `except` block together with the returned pair; when
`split` raises, the pair is `none`: the handler only prints, and the
following `for item in sent` raises `UnboundLocalError` (`sent` was never
assigned), which propagates to the caller. -/
def parse_line (split : String → Option (List (Nat × String)))
    (line line_id : String) : List String × Option (String × String) :=
  match split line with
  | none => (["Exception in line: " ++ line_id], none)
  | some sent =>
      let sentences := (sent.filter (fun item => pyStrip item.2 ≠ "")).map
        (fun item => stripNewlines item.2)
      let sentence_ids := sent.map (fun item => line_id ++ "_" ++ toString item.1)
      ([], some (pyJoin "\n" sentences, pyJoin "\n" sentence_ids))

/-! ### Precondition failure (claim C3) -/

theorem freshDelete_false (st : FileState) :
    freshDelete false st = ⟨none, st.idxFile⟩ := by
  cases st with
  | mk o i => cases o <;> rfl

/-- **C3 (amended)** — If the line count of the input corpus differs from the
length of the identifier list, `process_large_file` aborts with nothing
written; when `start_index` is given the pre-existing outputs are left
unchanged, but on a fresh run (`start_index` omitted) the pre-existing
outputs have already been removed by the time the precondition is checked
(`os.remove` runs before the `assert`; the removal of the identifier file
is skipped when the corpus output file is absent). -/
theorem process_mismatch_aborts (inputLines inputIds : List String)
    (f : String → String → Option (String × String)) (useIdx : Bool)
    (c : Nat) (si : Option Nat) (st : FileState)
    (h : inputLines.length ≠ inputIds.length) :
    process_large_file inputLines inputIds f useIdx c si st =
      ((match si with
        | none => freshDelete useIdx st
        | some _ => st), false) := by
  cases si <;> simp [process_large_file, h]

/-- Witness for `process_mismatch_aborts` at a concrete input. -/
theorem process_mismatch_aborts_witness :
    (["x"] : List String).length ≠ ([] : List String).length ∧
      process_large_file ["x"] [] (fun l i => some (l, i)) true 100 (some 5)
        ⟨some "OLD", some "OLDIDX"⟩ = (⟨some "OLD", some "OLDIDX"⟩, false) :=
  ⟨by decide, process_mismatch_aborts ["x"] [] (fun l i => some (l, i)) true 100 (some 5)
    ⟨some "OLD", some "OLDIDX"⟩ (by decide)⟩

/-- **C3 counterexample** — A fresh-run call (`start_index` omitted) that
fails the line-count precondition does mutate the filesystem: the
pre-existing output corpus and identifier files are removed before the
check fires, refuting "any pre-existing output corpus or output identifier
files are left unchanged by the failed call, for every value of
`start_index`". -/
theorem process_mismatch_fresh_deletes :
    process_large_file ["x"] [] (fun l i => some (l, i)) true 100 none
        ⟨some "OLD", some "OLDIDX"⟩ = (⟨none, none⟩, false) ∧
      (FileState.mk (some "OLD") (some "OLDIDX")) ≠ (FileState.mk none none) := by
  constructor
  · simp [process_large_file, freshDelete]
  · simp

/-! ### Unfolding equations for the success paths of `process_large_file` -/

theorem process_eq_fresh (inputLines inputIds : List String)
    (f : String → String → Option (String × String)) (useIdx : Bool) (c : Nat)
    (st : FileState) (h : inputLines.length = inputIds.length) :
    process_large_file inputLines inputIds f useIdx c none st =
      runChunks f useIdx (buildChunks c inputLines inputIds) (freshDelete useIdx st) := by
  simp [process_large_file, h]

theorem process_eq_resume (inputLines inputIds : List String)
    (f : String → String → Option (String × String)) (useIdx : Bool) (c s : Nat)
    (st : FileState) (h : inputLines.length = inputIds.length)
    (hs : s ≤ inputLines.length) :
    process_large_file inputLines inputIds f useIdx c (some s) st =
      runChunks f useIdx (buildChunks c (inputLines.drop s) (inputIds.drop s)) st := by
  simp only [process_large_file, h, ne_eq, not_true_eq_false, if_false]
  rw [if_neg (by omega)]

theorem process_eq_jump_past_end (inputLines inputIds : List String)
    (f : String → String → Option (String × String)) (useIdx : Bool) (c s : Nat)
    (st : FileState) (h : inputLines.length = inputIds.length)
    (hs : inputLines.length < s) :
    process_large_file inputLines inputIds f useIdx c (some s) st = (st, false) := by
  simp only [process_large_file, h, ne_eq, not_true_eq_false, if_false]
  rw [if_pos (by omega)]

/-! ### The `output_index_file = None` mode (claim C10) -/

/-- With `output_index_file = None`, the chunk loop never touches the
identifier file. -/
theorem runChunks_false_idxFile (f : String → String → Option (String × String))
    (chunks : List (List (String × String))) (st : FileState) :
    (runChunks f false chunks st).1.idxFile = st.idxFile := by
  induction chunks generalizing st with
  | nil => rfl
  | cons chunk rest ih =>
      rw [runChunks]
      cases mapChunk f chunk with
      | none => rfl
      | some outs => exact ih _

/-- The corpus output and the completion flag of the chunk loop do not depend
on whether an identifier file is being written. -/
theorem runChunks_outFile_flag_eq (f : String → String → Option (String × String))
    (chunks : List (List (String × String))) (st st' : FileState)
    (h : st.outFile = st'.outFile) :
    (runChunks f false chunks st).1.outFile = (runChunks f true chunks st').1.outFile ∧
      (runChunks f false chunks st).2 = (runChunks f true chunks st').2 := by
  induction chunks generalizing st st' with
  | nil => exact ⟨h, rfl⟩
  | cons chunk rest ih =>
      rw [runChunks, runChunks]
      cases mapChunk f chunk with
      | none => exact ⟨h, rfl⟩
      | some outs => exact ih _ _ (by simp [h])

theorem freshDelete_outFile (useIdx : Bool) (st : FileState) :
    (freshDelete useIdx st).outFile = none := by
  cases st with
  | mk o i => cases o <;> rfl

/-- **C10** — Calling `process_large_file` with `output_index_file = None`
(the mode `clean.py`'s `clean_file` uses) leaves the identifier file
untouched, while the corpus output and the completion flag are identical to
those of the same run with an identifier file; and on a fresh run the final
corpus output does not depend on the pre-existing corpus file (it is removed
before processing). -/
theorem process_none_mode (inputLines inputIds : List String)
    (f : String → String → Option (String × String)) (c : Nat)
    (si : Option Nat) (st : FileState) :
    (process_large_file inputLines inputIds f false c si st).1.idxFile = st.idxFile ∧
      (process_large_file inputLines inputIds f false c si st).1.outFile =
        (process_large_file inputLines inputIds f true c si st).1.outFile ∧
      (process_large_file inputLines inputIds f false c si st).2 =
        (process_large_file inputLines inputIds f true c si st).2 ∧
      (si = none →
        (process_large_file inputLines inputIds f false c si st).1.outFile =
          (process_large_file inputLines inputIds f false c si ⟨none, st.idxFile⟩).1.outFile) := by
  by_cases hlen : inputLines.length = inputIds.length
  · cases si with
    | none =>
        rw [process_eq_fresh _ _ f false c st hlen, process_eq_fresh _ _ f true c st hlen,
          process_eq_fresh _ _ f false c ⟨none, st.idxFile⟩ hlen]
        have hfd : freshDelete false st = ⟨none, st.idxFile⟩ := freshDelete_false st
        refine ⟨?_, ?_, ?_, ?_⟩
        · rw [hfd]
          exact runChunks_false_idxFile f _ _
        · exact (runChunks_outFile_flag_eq f _ _ _
            (by rw [freshDelete_outFile, freshDelete_outFile])).1
        · exact (runChunks_outFile_flag_eq f _ _ _
            (by rw [freshDelete_outFile, freshDelete_outFile])).2
        · intro
          rw [hfd, freshDelete_false]
    | some s =>
        by_cases hs : s ≤ inputLines.length
        · rw [process_eq_resume _ _ f false c s st hlen hs,
            process_eq_resume _ _ f true c s st hlen hs]
          exact ⟨runChunks_false_idxFile f _ _,
            (runChunks_outFile_flag_eq f _ _ _ rfl).1,
            (runChunks_outFile_flag_eq f _ _ _ rfl).2, by simp⟩
        · have hs' : inputLines.length < s := Nat.not_le.mp hs
          rw [process_eq_jump_past_end _ _ f false c s st hlen hs',
            process_eq_jump_past_end _ _ f true c s st hlen hs']
          exact ⟨rfl, rfl, rfl, by simp⟩
  · have hne : inputLines.length ≠ inputIds.length := hlen
    rw [process_mismatch_aborts _ _ f false c si st hne,
      process_mismatch_aborts _ _ f true c si st hne,
      process_mismatch_aborts _ _ f false c si ⟨none, st.idxFile⟩ hne]
    cases si with
    | none =>
        refine ⟨by simp [freshDelete_false], ?_, rfl, ?_⟩
        · simp only [freshDelete_false, freshDelete_outFile]
        · intro
          simp [freshDelete_false]
    | some s => exact ⟨rfl, rfl, rfl, by simp⟩

/-- Witness for `process_none_mode` at a concrete input (the inner
implication is discharged at `si = none`). -/
theorem process_none_mode_witness :
    (process_large_file ["a"] ["0"] (fun l i => some (l, i)) false 2 none
        ⟨some "O", some "I"⟩).1.idxFile = some "I" ∧
      (process_large_file ["a"] ["0"] (fun l i => some (l, i)) false 2 none
          ⟨some "O", some "I"⟩).1.outFile =
        (process_large_file ["a"] ["0"] (fun l i => some (l, i)) true 2 none
            ⟨some "O", some "I"⟩).1.outFile ∧
      (process_large_file ["a"] ["0"] (fun l i => some (l, i)) false 2 none
          ⟨some "O", some "I"⟩).2 =
        (process_large_file ["a"] ["0"] (fun l i => some (l, i)) true 2 none
            ⟨some "O", some "I"⟩).2 ∧
      ((none : Option Nat) = none →
        (process_large_file ["a"] ["0"] (fun l i => some (l, i)) false 2 none
            ⟨some "O", some "I"⟩).1.outFile =
          (process_large_file ["a"] ["0"] (fun l i => some (l, i)) false 2 none
              ⟨none, some "I"⟩).1.outFile) :=
  process_none_mode ["a"] ["0"] (fun l i => some (l, i)) 2 none ⟨some "O", some "I"⟩

/-! ### Resumability (claim C5) -/

/-- A transform that never raises, as passed to `process_large_file`. -/
def totalF (f : String → String → String × String) :
    String → String → Option (String × String) :=
  fun l i => some (f l i)

/-- The total corpus text a list of (line, id) pairs contributes to the
output file: each item's transformed text followed by a newline.  The join
of a chunk (`"\n".join(...) + "\n"`) equals this concatenation, so the total
appended output is independent of the chunk boundaries. -/
def flatOut (f : String → String → String × String)
    (pairs : List (String × String)) : String :=
  strConcat (pairs.map (fun p => (f p.1 p.2).1 ++ "\n"))

/-- The total identifier text a list of (line, id) pairs contributes to the
identifier file. -/
def flatIdx (f : String → String → String × String)
    (pairs : List (String × String)) : String :=
  strConcat (pairs.map (fun p => (f p.1 p.2).2 ++ "\n"))

theorem mapChunk_totalF (f : String → String → String × String)
    (pairs : List (String × String)) :
    mapChunk (totalF f) pairs = some (pairs.map (fun p => f p.1 p.2)) := by
  induction pairs with
  | nil => rfl
  | cons p ps ih => simp [mapChunk, totalF, ih]

theorem pyJoin_nl_append (xs : List String) (h : xs ≠ []) :
    pyJoin "\n" xs ++ "\n" = strConcat (xs.map (· ++ "\n")) := by
  induction xs with
  | nil => exact absurd rfl h
  | cons x xs ih =>
      cases xs with
      | nil => simp [pyJoin, strConcat]
      | cons y ys =>
          have := ih (by simp)
          simp only [pyJoin, List.map_cons, strConcat_cons] at this ⊢
          rw [String.append_assoc, this]

theorem strConcat_append (xs ys : List String) :
    strConcat (xs ++ ys) = strConcat xs ++ strConcat ys := by
  induction xs with
  | nil => simp [strConcat, String.empty_append]
  | cons x xs ih =>
      simp only [List.cons_append, strConcat_cons, ih, String.append_assoc]

theorem appendFile_appendFile (o : Option String) (a b : String) :
    appendFile (appendFile o a) b = appendFile o (a ++ b) := by
  cases o <;> simp [appendFile, String.append_assoc]

theorem toChunks_nil (c : Nat) : toChunks c ([] : List α) = [] := by
  simp [toChunks]

theorem toChunks_cons (c : Nat) (hc : c ≠ 0) (x : α) (xs : List α) :
    toChunks c (x :: xs) = (x :: xs).take c :: toChunks c ((x :: xs).drop c) := by
  rw [toChunks]
  simp [hc]

theorem buildChunks_nil_left (c : Nat) (ids : List String) :
    buildChunks c [] ids = [] := by
  simp [buildChunks, toChunks_nil]

theorem buildChunks_cons (c : Nat) (hc : c ≠ 0) (x y : String)
    (xs ys : List String) :
    buildChunks c (x :: xs) (y :: ys) =
      ((x :: xs).take c).zip ((y :: ys).take c) ::
        buildChunks c ((x :: xs).drop c) ((y :: ys).drop c) := by
  rw [buildChunks, toChunks_cons c hc, toChunks_cons c hc]
  simp [buildChunks]

theorem zip_take_eq (lines ids : List String) (c : Nat) :
    (lines.take c).zip (ids.take c) = (lines.zip ids).take c := by
  rw [List.zip_eq_zipWith, List.zip_eq_zipWith, List.take_zipWith]

theorem zip_drop_eq (lines ids : List String) (c : Nat) :
    (lines.drop c).zip (ids.drop c) = (lines.zip ids).drop c := by
  rw [List.zip_eq_zipWith, List.zip_eq_zipWith, List.drop_zipWith]

theorem flatOut_append (f : String → String → String × String)
    (ps qs : List (String × String)) :
    flatOut f (ps ++ qs) = flatOut f ps ++ flatOut f qs := by
  rw [flatOut, List.map_append, strConcat_append]
  rfl

theorem flatIdx_append (f : String → String → String × String)
    (ps qs : List (String × String)) :
    flatIdx f (ps ++ qs) = flatIdx f ps ++ flatIdx f qs := by
  rw [flatIdx, List.map_append, strConcat_append]
  rfl

/-- One step of the chunk loop on a never-raising transform. -/
theorem runChunks_cons_total (f : String → String → String × String) (useIdx : Bool)
    (chunk : List (String × String)) (rest : List (List (String × String)))
    (st : FileState) (hchunk : chunk ≠ []) :
    runChunks (totalF f) useIdx (chunk :: rest) st =
      runChunks (totalF f) useIdx rest
        { outFile := appendFile st.outFile (flatOut f chunk),
          idxFile := if useIdx then appendFile st.idxFile (flatIdx f chunk)
            else st.idxFile } := by
  rw [runChunks, mapChunk_totalF]
  have h1 : pyJoin "\n" ((chunk.map (fun p => f p.1 p.2)).map Prod.fst) ++ "\n" =
      flatOut f chunk := by
    rw [pyJoin_nl_append _ (by simpa using hchunk), flatOut, List.map_map, List.map_map]
    rfl
  have h2 : pyJoin "\n" ((chunk.map (fun p => f p.1 p.2)).map Prod.snd) ++ "\n" =
      flatIdx f chunk := by
    rw [pyJoin_nl_append _ (by simpa using hchunk), flatIdx, List.map_map, List.map_map]
    rfl
  simp only [chunkStrings, h1, h2]

/-- The chunk loop on a never-raising transform appends exactly the
concatenated per-item outputs, independently of the chunk boundaries. -/
theorem runChunks_total (f : String → String → String × String) (c : Nat) (hc : c ≠ 0)
    (lines ids : List String) (st : FileState) (h : lines.length = ids.length) :
    runChunks (totalF f) true (buildChunks c lines ids) st =
      ({ outFile := if lines = [] then st.outFile
            else appendFile st.outFile (flatOut f (lines.zip ids)),
         idxFile := if lines = [] then st.idxFile
            else appendFile st.idxFile (flatIdx f (lines.zip ids)) }, true) := by
  cases lines with
  | nil =>
      rw [buildChunks_nil_left]
      simp [runChunks]
  | cons x xs =>
      cases ids with
      | nil => simp at h
      | cons y ys =>
          have hpairs : ((x :: xs).take c).zip ((y :: ys).take c) ≠ [] := by
            cases c with
            | zero => exact absurd rfl hc
            | succ m => simp
          rw [buildChunks_cons c hc, runChunks_cons_total f true _ _ st hpairs]
          have hlen' : ((x :: xs).drop c).length = ((y :: ys).drop c).length := by
            simp only [List.length_drop, List.length_cons] at h ⊢
            omega
          rw [runChunks_total f c hc ((x :: xs).drop c) ((y :: ys).drop c) _ hlen']
          by_cases hdrop : (x :: xs).drop c = []
          · have hdropids : (y :: ys).drop c = [] := by
              rw [← List.length_eq_zero]
              rw [hdrop] at hlen'
              simpa using hlen'.symm
            have hzipall : ((x :: xs).take c).zip ((y :: ys).take c) =
                (x :: xs).zip (y :: ys) := by
              rw [zip_take_eq]
              have hzd : ((x :: xs).zip (y :: ys)).drop c = [] := by
                rw [← zip_drop_eq, hdrop]
                simp
              calc ((x :: xs).zip (y :: ys)).take c
                  = ((x :: xs).zip (y :: ys)).take c ++ ((x :: xs).zip (y :: ys)).drop c := by
                    rw [hzd, List.append_nil]
                _ = (x :: xs).zip (y :: ys) := List.take_append_drop _ _
            simp [hdrop, hzipall]
          · have hsplit : ((x :: xs).take c).zip ((y :: ys).take c) ++
                ((x :: xs).drop c).zip ((y :: ys).drop c) = (x :: xs).zip (y :: ys) := by
              rw [zip_take_eq, zip_drop_eq, List.take_append_drop]
            simp only [hdrop, if_false, if_true, if_neg (List.cons_ne_nil x xs)]
            rw [appendFile_appendFile, appendFile_appendFile,
              ← flatOut_append, ← flatIdx_append, hsplit]
termination_by lines.length
decreasing_by
  simp only [List.length_drop, List.length_cons] at *
  omega

/-- **C5** — Resumability: let a fresh run of `process_large_file` on
(`lines`, `ids`) produce output `O`.  A run interrupted after `k` fully
flushed chunks — whose file state equals that of a completed fresh run over
the first `s = k·chunk_size` input lines — and then resumed with
`start_index = s` (the number of input lines whose results were flushed)
ends with exactly the file state of the fresh run: the concatenation of
pre-crash and post-resume output is `O`, with no duplicated and no missing
lines, and the resumed run preserves the pre-existing outputs and starts at
offset `s` in both the input text and the identifier sequence. -/
theorem process_resumable (lines ids : List String)
    (f : String → String → String × String) (c k s : Nat) (hc : c ≠ 0)
    (_hs : s = k * c) (hlen : lines.length = ids.length) (hk : s ≤ lines.length) :
    (process_large_file lines ids (totalF f) true c (some s)
        (process_large_file (lines.take s) (ids.take s) (totalF f) true c none
          ⟨none, none⟩).1).1 =
      (process_large_file lines ids (totalF f) true c none ⟨none, none⟩).1 ∧
      (process_large_file lines ids (totalF f) true c (some s)
        (process_large_file (lines.take s) (ids.take s) (totalF f) true c none
          ⟨none, none⟩).1).2 = true ∧
      (process_large_file lines ids (totalF f) true c none ⟨none, none⟩).2 = true := by
  have hlen_take : (lines.take s).length = (ids.take s).length := by
    simp [hlen]
  have hlen_drop : (lines.drop s).length = (ids.drop s).length := by
    simp [hlen]
  have hfd : freshDelete true (⟨none, none⟩ : FileState) = ⟨none, none⟩ := rfl
  rw [process_eq_fresh _ _ _ true c _ hlen_take, hfd,
    runChunks_total f c hc _ _ _ hlen_take,
    process_eq_fresh _ _ _ true c _ hlen, hfd,
    runChunks_total f c hc _ _ _ hlen,
    process_eq_resume _ _ _ true c s _ hlen hk,
    runChunks_total f c hc _ _ _ hlen_drop]
  refine ⟨?_, rfl, rfl⟩
  by_cases hnil : lines = []
  · subst hnil
    simp
  · by_cases hs0 : s = 0
    · subst hs0
      simp [List.take_zero, List.drop_zero, hnil]
    · have htake : lines.take s ≠ [] := by
        cases lines with
        | nil => exact absurd rfl hnil
        | cons a as =>
            cases s with
            | zero => exact absurd rfl hs0
            | succ m => simp
      by_cases hdrop : lines.drop s = []
      · have hdrop_ids : ids.drop s = [] := by
          rw [← List.length_eq_zero, ← hlen_drop, List.length_eq_zero, hdrop]
        have htake_all : lines.take s = lines := by
          calc lines.take s = lines.take s ++ lines.drop s := by rw [hdrop, List.append_nil]
            _ = lines := List.take_append_drop _ _
        have htake_all_ids : ids.take s = ids := by
          calc ids.take s = ids.take s ++ ids.drop s := by rw [hdrop_ids, List.append_nil]
            _ = ids := List.take_append_drop _ _
        simp [hdrop, htake_all, htake_all_ids]
      · have hsplit : (lines.take s).zip (ids.take s) ++ (lines.drop s).zip (ids.drop s) =
            lines.zip ids := by
          rw [zip_take_eq, zip_drop_eq, List.take_append_drop]
        simp only [htake, hdrop, hnil, if_false, if_neg htake, if_neg hdrop, if_neg hnil]
        rw [appendFile_appendFile, appendFile_appendFile,
          ← flatOut_append, ← flatIdx_append, hsplit]

/-- Witness for `process_resumable` at a concrete run: three input lines,
chunk size 2, crash after one full chunk (two input lines flushed). -/
theorem process_resumable_witness :
    (2 : Nat) ≠ 0 ∧ (2 : Nat) = 1 * 2 ∧
      (["a", "b", "c"] : List String).length = (["1", "2", "3"] : List String).length ∧
      (2 : Nat) ≤ (["a", "b", "c"] : List String).length ∧
      ((process_large_file ["a", "b", "c"] ["1", "2", "3"]
            (totalF (fun l i => (l ++ "!", i))) true 2 (some 2)
            (process_large_file ((["a", "b", "c"] : List String).take 2)
              ((["1", "2", "3"] : List String).take 2)
              (totalF (fun l i => (l ++ "!", i))) true 2 none ⟨none, none⟩).1).1 =
          (process_large_file ["a", "b", "c"] ["1", "2", "3"]
            (totalF (fun l i => (l ++ "!", i))) true 2 none ⟨none, none⟩).1 ∧
        (process_large_file ["a", "b", "c"] ["1", "2", "3"]
            (totalF (fun l i => (l ++ "!", i))) true 2 (some 2)
            (process_large_file ((["a", "b", "c"] : List String).take 2)
              ((["1", "2", "3"] : List String).take 2)
              (totalF (fun l i => (l ++ "!", i))) true 2 none ⟨none, none⟩).1).2 = true ∧
        (process_large_file ["a", "b", "c"] ["1", "2", "3"]
            (totalF (fun l i => (l ++ "!", i))) true 2 none ⟨none, none⟩).2 = true) :=
  ⟨by decide, by decide, rfl, by decide,
    process_resumable ["a", "b", "c"] ["1", "2", "3"] (fun l i => (l ++ "!", i))
      2 1 2 (by decide) (by decide) rfl (by decide)⟩

/-! ### Alignment of corpus and identifier output (claim C1) -/

/-- **C1** — The alignment invariant fails on the code: when the spaCy
splitter returns a whitespace-only sentence among others (here
`[(0, "a"), (1, " ")]` for the single input document), `parse_line` filters
the whitespace-only sentence out of the text list but keeps its identifier
(`[item[1].strip("\n") for item in sent if item[1].strip()]` versus
`[f"{line_id}_{item[0]}" for item in sent]`), so the completed run writes
one line to the output corpus but two lines to the output identifier file. -/
theorem parse_line_breaks_alignment :
    countNL (((process_large_file ["doc"] ["7"]
          (fun l i => (parse_line (fun _ => some [(0, "a"), (1, " ")]) l i).2)
          true 100 none ⟨none, none⟩).1.outFile).getD "") = 1 ∧
      countNL (((process_large_file ["doc"] ["7"]
          (fun l i => (parse_line (fun _ => some [(0, "a"), (1, " ")]) l i).2)
          true 100 none ⟨none, none⟩).1.idxFile).getD "") = 2 ∧
      (1 : Nat) ≠ 2 := by
  have hbc : buildChunks 100 ["doc"] ["7"] = [[("doc", "7")]] := by
    rw [buildChunks_cons 100 (by decide)]
    simp [buildChunks_nil_left]
  rw [process_eq_fresh ["doc"] ["7"]
      (fun l i => (parse_line (fun _ => some [(0, "a"), (1, " ")]) l i).2) true 100
      ⟨none, none⟩ (by decide), hbc]
  decide

/-! ### Transform failure semantics (claim C4) -/

/-- **C4** — When the sentence splitter raises for one item, `parse_line`'s
`except` block does print the error with that item's identifier, but `sent`
is then left unassigned, so the comprehension over `sent` raises
`UnboundLocalError`; the chunk loop of `process_large_file` does not catch
it, so the whole run aborts: here the failing first item ("bad") prevents
the second item ("good") from ever being processed or written. -/
theorem parse_line_exception_aborts_run :
    (process_large_file ["bad", "good"] ["1", "2"]
        (fun l i => (parse_line (fun l' => if l' = "bad" then none else some [(0, l')]) l i).2)
        true 1 none ⟨none, none⟩) = (⟨none, none⟩, false) ∧
      (parse_line (fun l' => if l' = "bad" then none else some [(0, l')]) "bad" "1").1 =
        ["Exception in line: 1"] := by
  have hbc : buildChunks 1 ["bad", "good"] ["1", "2"] = [[("bad", "1")], [("good", "2")]] := by
    rw [buildChunks_cons 1 (by decide)]
    simp only [List.take_succ_cons, List.take_zero, List.drop_succ_cons, List.drop_zero]
    rw [buildChunks_cons 1 (by decide)]
    simp [buildChunks_nil_left]
  rw [process_eq_fresh ["bad", "good"] ["1", "2"]
      (fun l i => (parse_line (fun l' => if l' = "bad" then none else some [(0, l')]) l i).2)
      true 1 ⟨none, none⟩ (by decide), hbc]
  constructor
  · rfl
  · rfl

/-! ## Document-level aggregation (`construct_doc_level_corpus`, `score.py`) -/

/-- `x.split("_")[0]`: the document-identifier prefix of a sentence ID — the
characters before the first `'_'` (the whole string when there is none). -/
def docIdOf (s : String) : String := ⟨s.data.takeWhile (· ≠ '_')⟩

/-- One `id_doc_dict[id] += " " + sent_corpus[i]` step on the
insertion-ordered dictionary `defaultdict(lambda: "")`: the first write for a
key appends the entry `(id, "" + " " + sent)` at the end; later writes extend
the existing entry's value in place. -/
def dictUpd : List (String × String) → String → String → List (String × String)
  | [], k, s => [(k, " " ++ s)]
  | (k', v) :: t, k, s =>
      if k' = k then (k', v ++ (" " ++ s)) :: t else (k', v) :: dictUpd t k s

/-- The dictionary built by the `for i, id in enumerate(doc_ids)` loop. -/
def docDict (pairs : List (String × String)) : List (String × String) :=
  pairs.foldl (fun t p => dictUpd t p.1 p.2) []

/-- `construct_doc_level_corpus` (`score.py`): split each sentence ID on
`"_"` and keep the leading segment, accumulate `" " + sentence` per document
id in an insertion-ordered dictionary, and return
(`list(id_doc_dict.values())`, `list(id_doc_dict.keys())`).  (The pickle
dumps are omitted; the function's return value is modelled.) -/
def construct_doc_level_corpus (sent_corpus sent_IDs : List String) :
    List String × List String :=
  let doc_ids := sent_IDs.map docIdOf
  let dict := docDict (doc_ids.zip sent_corpus)
  (dict.map Prod.snd, dict.map Prod.fst)

/-- The distinct elements of a list in order of first appearance. -/
def firstSeen {α : Type} [DecidableEq α] : List α → List α
  | [] => []
  | x :: xs => x :: firstSeen (xs.filter (fun y => y ≠ x))
termination_by l => l.length
decreasing_by
  have h := (List.filter_sublist (p := fun y => decide (y ≠ x)) xs).length_le
  simp only [List.length_cons]
  omega

/-- The text the aggregation loop accumulates for document `d`: the
concatenation of `" " + sentence` over `d`'s sentences in stream order
(equivalently, a leading space followed by the space-joined sentences). -/
def docText (pairs : List (String × String)) (d : String) : String :=
  strConcat ((pairs.filter (fun p => p.1 = d)).map (fun p => " " ++ p.2))

/-! ### Lemmas for the aggregation -/

theorem dictUpd_not_mem (t : List (String × String)) (k s : String)
    (h : k ∉ t.map Prod.fst) :
    dictUpd t k s = t ++ [(k, " " ++ s)] := by
  induction t with
  | nil => rfl
  | cons e t ih =>
      obtain ⟨k', v⟩ := e
      simp only [List.map_cons, List.mem_cons] at h
      push_neg at h
      rw [dictUpd, if_neg (Ne.symm h.1), ih h.2]
      rfl

theorem dictUpd_mem_nodup (t : List (String × String)) (k s : String)
    (hnd : (t.map Prod.fst).Nodup) (h : k ∈ t.map Prod.fst) :
    dictUpd t k s = t.map (fun e => if e.1 = k then (e.1, e.2 ++ (" " ++ s)) else e) := by
  induction t with
  | nil => simp at h
  | cons e t ih =>
      obtain ⟨k', v⟩ := e
      simp only [List.map_cons, List.nodup_cons] at hnd
      by_cases hk : k' = k
      · subst hk
        rw [dictUpd, if_pos rfl]
        have hmap : t.map (fun e : String × String =>
            if e.1 = k' then (e.1, e.2 ++ (" " ++ s)) else e) = t := by
          have hcg : t.map (fun e : String × String =>
              if e.1 = k' then (e.1, e.2 ++ (" " ++ s)) else e) = t.map id :=
            List.map_congr_left (fun a ha => by
              have hmem : a.1 ∈ t.map Prod.fst := List.mem_map_of_mem Prod.fst ha
              rw [if_neg (fun hc => hnd.1 (by rw [← hc]; exact hmem))]
              rfl)
          rw [hcg, List.map_id]
        rw [List.map_cons, hmap]
        simp
      · rw [dictUpd, if_neg hk]
        simp only [List.map_cons, List.mem_cons] at h
        rcases h with h | h
        · exact absurd h.symm hk
        · rw [ih hnd.2 h]
          simp only [List.map_cons]
          rw [if_neg hk]

theorem firstSeen_mem {α : Type} [DecidableEq α] (l : List α) (a : α) :
    a ∈ firstSeen l ↔ a ∈ l := by
  cases l with
  | nil => simp [firstSeen]
  | cons x xs =>
      rw [firstSeen]
      by_cases ha : a = x
      · subst ha
        simp
      · simp only [List.mem_cons, ha, false_or]
        rw [firstSeen_mem (xs.filter (fun y => y ≠ x)) a]
        simp [List.mem_filter, ha]
termination_by l.length
decreasing_by
  all_goals
    simp only [List.length_cons]
    refine Nat.lt_succ_of_le ?_
    exact (List.filter_sublist _).length_le

theorem firstSeen_nodup {α : Type} [DecidableEq α] (l : List α) :
    (firstSeen l).Nodup := by
  cases l with
  | nil => simp [firstSeen]
  | cons x xs =>
      rw [firstSeen]
      refine List.nodup_cons.mpr ⟨?_, firstSeen_nodup _⟩
      intro hx
      rw [firstSeen_mem] at hx
      simp [List.mem_filter] at hx
termination_by l.length
decreasing_by
  all_goals
    simp only [List.length_cons]
    refine Nat.lt_succ_of_le ?_
    exact (List.filter_sublist _).length_le

theorem firstSeen_append_single {α : Type} [DecidableEq α] (l : List α) (a : α) :
    firstSeen (l ++ [a]) =
      if a ∈ l then firstSeen l else firstSeen l ++ [a] := by
  cases l with
  | nil => simp [firstSeen]
  | cons x xs =>
      rw [List.cons_append, firstSeen, List.filter_append]
      by_cases ha : a = x
      · subst ha
        simp only [List.mem_cons, true_or, if_pos]
        rw [firstSeen]
        simp
      · have hfa : List.filter (fun y => y ≠ x) [a] = [a] := by
          simp [ha]
        rw [hfa, firstSeen_append_single (xs.filter (fun y => y ≠ x)) a]
        have hmem : a ∈ xs.filter (fun y => y ≠ x) ↔ a ∈ xs := by
          simp [List.mem_filter, ha]
        by_cases hax : a ∈ xs
        · rw [if_pos (hmem.mpr hax), if_pos (by simp [hax]), firstSeen]
        · rw [if_neg (fun hc => hax (hmem.mp hc)),
            if_neg (by simp [hax, ha]), firstSeen]
          simp
termination_by l.length
decreasing_by
  all_goals
    simp only [List.length_cons]
    refine Nat.lt_succ_of_le ?_
    exact (List.filter_sublist _).length_le

theorem docText_append_single (P : List (String × String)) (p : String × String)
    (d : String) :
    docText (P ++ [p]) d =
      if p.1 = d then docText P d ++ (" " ++ p.2) else docText P d := by
  rw [docText, List.filter_append]
  by_cases hp : p.1 = d
  · rw [List.map_append, strConcat_append]
    simp [docText, hp, strConcat, String.append_empty]
  · simp [docText, hp]

theorem map_fst_pair_map (l : List String) (g : String → String) :
    (l.map (fun d => (d, g d))).map Prod.fst = l := by
  rw [List.map_map]
  have hcomp : (Prod.fst ∘ fun d : String => (d, g d)) = id := rfl
  rw [hcomp, List.map_id]

theorem map_snd_pair_map (l : List String) (g : String → String) :
    (l.map (fun d => (d, g d))).map Prod.snd = l.map g := by
  rw [List.map_map]
  rfl

/-- The aggregation dictionary, characterised: its keys are the document
identifiers in first-seen order, and each value is the accumulated
`" " + sentence` concatenation for that document. -/
theorem docDict_eq (pairs : List (String × String)) :
    docDict pairs =
      (firstSeen (pairs.map Prod.fst)).map (fun d => (d, docText pairs d)) := by
  induction pairs using List.reverseRecOn with
  | nil => simp [docDict, firstSeen]
  | append_singleton P p ih =>
      have hstep : docDict (P ++ [p]) = dictUpd (docDict P) p.1 p.2 := by
        rw [docDict, List.foldl_append]
        rfl
      rw [hstep, ih, List.map_append]
      simp only [List.map_cons, List.map_nil]
      rw [firstSeen_append_single]
      by_cases hp : p.1 ∈ P.map Prod.fst
      · have hpf : p.1 ∈ firstSeen (P.map Prod.fst) := (firstSeen_mem _ _).mpr hp
        have hpd : p.1 ∈ ((firstSeen (P.map Prod.fst)).map
            (fun d => (d, docText P d))).map Prod.fst := by
          rw [map_fst_pair_map]
          exact hpf
        have hnd : (((firstSeen (P.map Prod.fst)).map
            (fun d => (d, docText P d))).map Prod.fst).Nodup := by
          rw [map_fst_pair_map]
          exact firstSeen_nodup _
        rw [dictUpd_mem_nodup _ _ _ hnd hpd, if_pos hp, List.map_map]
        apply List.map_congr_left
        intro d hd
        simp only [Function.comp_apply]
        rw [docText_append_single]
        by_cases hdp : p.1 = d
        · rw [if_pos hdp, if_pos hdp.symm]
        · rw [if_neg hdp, if_neg (fun hc => hdp hc.symm)]
      · have hpf : p.1 ∉ ((firstSeen (P.map Prod.fst)).map
            (fun d => (d, docText P d))).map Prod.fst := by
          rw [map_fst_pair_map]
          exact fun hc => hp ((firstSeen_mem _ _).mp hc)
        rw [dictUpd_not_mem _ _ _ hpf, if_neg hp, List.map_append]
        congr 1
        · apply List.map_congr_left
          intro d hd
          rw [docText_append_single,
            if_neg (fun hc => hp (by rw [hc]; exact (firstSeen_mem _ _).mp hd))]
        · simp only [List.map_cons, List.map_nil]
          rw [docText_append_single, if_pos rfl]
          have hempty : docText P p.1 = "" := by
            rw [docText]
            have hfe : P.filter (fun q => q.1 = p.1) = [] := by
              rw [List.filter_eq_nil_iff]
              intro q hq hq1
              apply hp
              simp only [decide_eq_true_eq] at hq1
              rw [← hq1]
              exact List.mem_map_of_mem Prod.fst hq
            rw [hfe]
            rfl
          rw [hempty, String.empty_append]

/-- **C2 counterexample** — On the spec's own example the function does not
return `["a b", "c"]`: every accumulated document text starts with a space
(`id_doc_dict[id] += " " + sent` starts from the empty default), so the
returned corpus is `[" a b", " c"]`. -/
theorem construct_doc_level_corpus_example :
    construct_doc_level_corpus ["a", "b", "c"] ["1_0", "1_1", "2_0"] =
      ([" a b", " c"], ["1", "2"]) ∧
      (construct_doc_level_corpus ["a", "b", "c"] ["1_0", "1_1", "2_0"]).1 ≠
        ["a b", "c"] := by
  constructor
  · rfl
  · decide

/-- **C2 (amended)** — `construct_doc_level_corpus` returns the document
identifiers (leading segment of each sentence ID before the first `"_"`) in
order of first appearance, and, for each document in that order, the
concatenation of `" " + sentence` over its sentences in stream order — i.e.
a leading space followed by the space-joined sentence texts (the claim's
`["a b", "c"]` holds only up to this leading space). -/
theorem construct_doc_level_corpus_spec (sent_corpus sent_IDs : List String)
    (h : sent_IDs.length = sent_corpus.length) :
    (construct_doc_level_corpus sent_corpus sent_IDs).2 =
        firstSeen (sent_IDs.map docIdOf) ∧
      (construct_doc_level_corpus sent_corpus sent_IDs).1 =
        (firstSeen (sent_IDs.map docIdOf)).map
          (fun d => docText ((sent_IDs.map docIdOf).zip sent_corpus) d) := by
  have hfst : ((sent_IDs.map docIdOf).zip sent_corpus).map Prod.fst =
      sent_IDs.map docIdOf :=
    List.map_fst_zip _ _ (by simp [h])
  constructor
  · show (docDict ((sent_IDs.map docIdOf).zip sent_corpus)).map Prod.fst = _
    rw [docDict_eq, hfst, map_fst_pair_map]
  · show (docDict ((sent_IDs.map docIdOf).zip sent_corpus)).map Prod.snd = _
    rw [docDict_eq, hfst, map_snd_pair_map]

/-- Witness for `construct_doc_level_corpus_spec` at the spec's example. -/
theorem construct_doc_level_corpus_spec_witness :
    (["1_0", "1_1", "2_0"] : List String).length =
        (["a", "b", "c"] : List String).length ∧
      (construct_doc_level_corpus ["a", "b", "c"] ["1_0", "1_1", "2_0"]).2 =
          firstSeen ((["1_0", "1_1", "2_0"] : List String).map docIdOf) ∧
        (construct_doc_level_corpus ["a", "b", "c"] ["1_0", "1_1", "2_0"]).1 =
          (firstSeen ((["1_0", "1_1", "2_0"] : List String).map docIdOf)).map
            (fun d => docText (((["1_0", "1_1", "2_0"] : List String).map docIdOf).zip
              ["a", "b", "c"]) d) :=
  ⟨rfl, construct_doc_level_corpus_spec ["a", "b", "c"] ["1_0", "1_1", "2_0"] rfl⟩

/-! ## Document frequencies (`calculate_df`, `score.py`) -/

/-- One `df_dict[word] += 1` step on the insertion-ordered
`defaultdict(int)`: an absent word is appended with count 1. -/
def bump : List (String × Nat) → String → List (String × Nat)
  | [], w => [(w, 1)]
  | (k, v) :: t, w => if k = w then (k, v + 1) :: t else (k, v) :: bump t w

/-- `calculate_df` (`score.py`): for each document of the corpus, each
distinct word of `doc.split()` (`words_in_doc = set(doc_splited)`; the
iteration order of the Python set does not affect the resulting mapping,
here taken in first-seen order) increments that word's counter by one.
The pickle dump is omitted; the returned dict is modelled as an
insertion-ordered association list. -/
def calculate_df (corpus : List String) : List (String × Nat) :=
  corpus.foldl (fun t doc => (firstSeen (pySplit doc)).foldl bump t) []

/-- Reading the `defaultdict(int)` as a total function (absent word = 0). -/
def dfLookup (t : List (String × Nat)) (w : String) : Nat :=
  (List.lookup w t).getD 0

/-! ### Lemmas for `calculate_df` -/

theorem bump_lookup (t : List (String × Nat)) (w w' : String) :
    List.lookup w' (bump t w) =
      if w' = w then some ((List.lookup w' t).getD 0 + 1) else List.lookup w' t := by
  induction t with
  | nil =>
      by_cases h : w' = w
      · subst h
        simp [bump, List.lookup_cons]
      · have hb : (w' == w) = false := beq_eq_false_iff_ne.mpr h
        simp [bump, List.lookup_cons, hb, h]
  | cons e t ih =>
      obtain ⟨k, v⟩ := e
      rw [bump]
      by_cases hk : k = w
      · rw [if_pos hk]
        by_cases h : w' = k
        · rw [if_pos (h.trans hk)]
          simp [List.lookup_cons, h]
        · rw [if_neg (fun hc : w' = w => h (hc.trans hk.symm))]
          have hb : (w' == k) = false := beq_eq_false_iff_ne.mpr h
          simp [List.lookup_cons, hb]
      · rw [if_neg hk]
        by_cases h : w' = k
        · rw [if_neg (fun hc : w' = w => hk (h.symm.trans hc))]
          simp [List.lookup_cons, h]
        · have hb : (w' == k) = false := beq_eq_false_iff_ne.mpr h
          simp only [List.lookup_cons, hb]
          exact ih

theorem foldl_bump_lookup (l : List String) (t : List (String × Nat)) (w : String) :
    dfLookup (l.foldl bump t) w = dfLookup t w + l.count w := by
  induction l generalizing t with
  | nil => simp
  | cons x xs ih =>
      rw [List.foldl_cons, ih, List.count_cons]
      by_cases h : x = w
      · have hb : (x == w) = true := beq_iff_eq.mpr h
        rw [dfLookup, bump_lookup, if_pos h.symm, hb]
        simp [dfLookup]
        omega
      · have hb : (x == w) = false := beq_eq_false_iff_ne.mpr h
        rw [dfLookup, bump_lookup, if_neg (fun hc : w = x => h hc.symm), hb]
        simp [dfLookup]

theorem foldl_bump_isSome (l : List String) (t : List (String × Nat)) (w : String) :
    (List.lookup w (l.foldl bump t)).isSome ↔ (List.lookup w t).isSome ∨ w ∈ l := by
  induction l generalizing t with
  | nil => simp
  | cons x xs ih =>
      rw [List.foldl_cons, ih]
      by_cases h : w = x
      · rw [bump_lookup, if_pos h]
        simp [h]
      · rw [bump_lookup, if_neg h]
        simp [h]

theorem firstSeen_count {α : Type} [DecidableEq α] (l : List α) (w : α) :
    (firstSeen l).count w = if w ∈ l then 1 else 0 := by
  by_cases h : w ∈ l
  · rw [if_pos h]
    exact List.count_eq_one_of_mem (firstSeen_nodup l) ((firstSeen_mem l w).mpr h)
  · rw [if_neg h]
    exact List.count_eq_zero_of_not_mem (fun hc => h ((firstSeen_mem l w).mp hc))

/-- **C6** — For every document corpus and every word `w`, `calculate_df`
maps `w` to the number of documents whose `split()` token list contains `w`
at least once (duplicates inside one document count once, by the `set`
semantics), and contains an entry for exactly the words that occur in some
document. -/
theorem calculate_df_spec (corpus : List String) (w : String) :
    dfLookup (calculate_df corpus) w =
        corpus.countP (fun d => decide (w ∈ pySplit d)) ∧
      ((List.lookup w (calculate_df corpus)).isSome ↔ ∃ d ∈ corpus, w ∈ pySplit d) := by
  have haux : ∀ (docs : List String) (t : List (String × Nat)),
      dfLookup (docs.foldl (fun t doc => (firstSeen (pySplit doc)).foldl bump t) t) w =
          dfLookup t w + docs.countP (fun d => decide (w ∈ pySplit d)) ∧
        ((List.lookup w (docs.foldl
            (fun t doc => (firstSeen (pySplit doc)).foldl bump t) t)).isSome ↔
          (List.lookup w t).isSome ∨ ∃ d ∈ docs, w ∈ pySplit d) := by
    intro docs
    induction docs with
    | nil => simp
    | cons doc docs ih =>
        intro t
        rw [List.foldl_cons]
        refine ⟨?_, ?_⟩
        · rw [(ih _).1, foldl_bump_lookup, firstSeen_count, List.countP_cons]
          by_cases h : w ∈ pySplit doc
          · simp [h]
            omega
          · simp [h]
        · rw [(ih _).2, foldl_bump_isSome, firstSeen_mem]
          constructor
          · rintro ((h | h) | h)
            · exact Or.inl h
            · exact Or.inr ⟨doc, by simp, h⟩
            · rcases h with ⟨d, hd, hw⟩
              exact Or.inr ⟨d, by simp [hd], hw⟩
          · rintro (h | ⟨d, hd, hw⟩)
            · exact Or.inl (Or.inl h)
            · rcases List.mem_cons.mp hd with hd | hd
              · exact Or.inl (Or.inr (hd ▸ hw))
              · exact Or.inr ⟨d, hd, hw⟩
  have h := haux corpus []
  simpa [calculate_df, dfLookup] using h

/-! ## Text cleaning (`TextCleaner`, `Utils/text_cleaning.py`)

ASCII view of the regex character classes: `\w` is modelled as
alphanumeric-or-underscore (`pyWordChar`), `\s` as `pyWs`, `\d` as
`Char.isDigit`, and `str.lower()` as `Char.toLower` on every character;
Unicode-only members of those classes are outside the model. -/

/-- `\w`: a word character. -/
def pyWordChar (c : Char) : Bool := c.isAlphanum || c = '_'

/-- `re.sub(r'\s+', ' ', text)` on a character list: each maximal
whitespace run, scanned left to right, is replaced by one space. -/
def collapseWsL : List Char → List Char
  | [] => []
  | c :: cs =>
      if pyWs c then ' ' :: collapseWsL (cs.dropWhile pyWs)
      else c :: collapseWsL cs
termination_by l => l.length
decreasing_by
  all_goals simp only [List.length_cons]
  · exact Nat.lt_succ_of_le (List.dropWhile_sublist _).length_le
  · omega

/-- `re.sub(r'([^\w\s])\1+', r'\1', text)`: a run of one repeated
punctuation character collapses to a single occurrence. -/
def collapsePunctL : List Char → List Char
  | [] => []
  | c :: cs =>
      if !pyWordChar c && !pyWs c then c :: collapsePunctL (cs.dropWhile (· = c))
      else c :: collapsePunctL cs
termination_by l => l.length
decreasing_by
  all_goals simp only [List.length_cons]
  · exact Nat.lt_succ_of_le (List.dropWhile_sublist _).length_le
  · omega

/-- The bracket/possessive tokens `_remove_stopwords` always unions into the
stop set: `{"-lrb-", "-rrb-", "-lsb-", "-rsb-"}` plus apostrophe-s. -/
def stopExtras : List String :=
  ["-lrb-", "-rrb-", "-lsb-", "-rsb-", String.mk [Char.ofNat 39, 's']]

/-- The cleaning options of `TextCleaner.__init__`, with the resolved stop
set (`custom_stop` or the NLTK list — external data — when `remove_stop` is
set, empty otherwise). -/
structure TextCleaner where
  to_lower : Bool := false
  remove_num : Bool := false
  remove_punc : Bool := false
  remove_extra_punc : Bool := false
  remove_stop : Bool := false
  remove_single : Bool := false
  stops : List String := []

namespace TextCleaner

/-- `_to_lower`: `text.lower()`. -/
def toLowerStep (text : String) : String := ⟨text.data.map Char.toLower⟩

/-- `_remove_numbers`: `re.sub(r'\d+', '', text)` — digit runs are deleted,
i.e. every digit character is removed. -/
def removeNumbersStep (text : String) : String := ⟨text.data.filter (fun c => !c.isDigit)⟩

/-- `_remove_punctuation`: `re.sub(r'[^\w\s]', ' ', text)`. -/
def removePuncStep (text : String) : String :=
  ⟨text.data.map (fun c => if !pyWordChar c && !pyWs c then ' ' else c)⟩

/-- `_remove_extra_punctuation`: `re.sub(r'([^\w\s])\1+', r'\1', text)`. -/
def removeExtraPuncStep (text : String) : String := ⟨collapsePunctL text.data⟩

/-- `_remove_extra_whitespace`: `re.sub(r'\s+', ' ', text).strip()`. -/
def removeExtraWhitespaceStep (text : String) : String :=
  ⟨pyStripL (collapseWsL text.data)⟩

/-- `_remove_stopwords`: keep the words of `text.split()` outside
`self.stops | {"-lrb-", "-rrb-", "-lsb-", "-rsb-", apostrophe-s}`, joined
with single spaces. -/
def removeStopStep (stops : List String) (text : String) : String :=
  pyJoin " " ((pySplit text).filter
    (fun w => !(stops.contains w || stopExtras.contains w)))

/-- `_remove_single`: keep the words of `text.split()` longer than one
character, joined with single spaces. -/
def removeSingleStep (text : String) : String :=
  pyJoin " " ((pySplit text).filter (fun w => w.data.length > 1))

/-- `TextCleaner.clean`: the configured steps in source order; whitespace
collapsing runs unconditionally between the character-level and the
token-level steps. -/
def clean (tc : TextCleaner) (text : String) : String :=
  let t1 := if tc.to_lower then toLowerStep text else text
  let t2 := if tc.remove_num then removeNumbersStep t1 else t1
  let t3 := if tc.remove_extra_punc then removeExtraPuncStep t2 else t2
  let t4 := if tc.remove_punc then removePuncStep t3 else t3
  let t5 := removeExtraWhitespaceStep t4
  let t6 := if tc.remove_stop then removeStopStep tc.stops t5 else t5
  if tc.remove_single then removeSingleStep t6 else t6

end TextCleaner

/-! ### Whitespace normal form -/

/-- No two adjacent whitespace characters. -/
def noDoubleWs : List Char → Bool
  | [] => true
  | [_] => true
  | a :: b :: rest => (!(pyWs a && pyWs b)) && noDoubleWs (b :: rest)

/-- Whitespace-normalised: no leading or trailing whitespace character and
no two adjacent whitespace characters. -/
def wsNormalizedL (l : List Char) : Bool :=
  noDoubleWs l &&
    (match l.head? with | some c => !pyWs c | none => true) &&
    (match l.getLast? with | some c => !pyWs c | none => true)

/-- Whitespace-normalised, on strings. -/
def wsNormalized (s : String) : Bool := wsNormalizedL s.data

theorem noDoubleWs_cons (a : Char) (l : List Char) :
    noDoubleWs (a :: l) =
      ((match l.head? with | some d => !(pyWs a && pyWs d) | none => true) &&
        noDoubleWs l) := by
  cases l with
  | nil => rfl
  | cons b t => rfl

theorem noDoubleWs_tail (a : Char) (l : List Char)
    (h : noDoubleWs (a :: l) = true) : noDoubleWs l = true := by
  rw [noDoubleWs_cons] at h
  exact (Bool.and_eq_true_iff.mp h).2

theorem noDoubleWs_dropWhile (p : Char → Bool) (l : List Char)
    (h : noDoubleWs l = true) : noDoubleWs (l.dropWhile p) = true := by
  induction l with
  | nil => exact h
  | cons a t ih =>
      rw [List.dropWhile_cons]
      by_cases hp : p a = true
      · simp only [hp, if_true]
        exact ih (noDoubleWs_tail a t h)
      · simp only [hp, if_false]
        exact h

theorem noDoubleWs_prefix (l1 l2 : List Char)
    (h : noDoubleWs (l1 ++ l2) = true) : noDoubleWs l1 = true := by
  induction l1 with
  | nil => rfl
  | cons a t ih =>
      cases t with
      | nil => rfl
      | cons b u =>
          rw [List.cons_append, List.cons_append] at h
          rw [noDoubleWs] at h ⊢
          rcases Bool.and_eq_true_iff.mp h with ⟨h1, h2⟩
          rw [h1]
          rw [← List.cons_append] at h2
          rw [ih h2]
          rfl

/-- `dropTrail` returns a prefix of its input. -/
theorem dropTrail_prefix (p : Char → Bool) (l : List Char) :
    ∃ s, dropTrail p l ++ s = l := by
  induction l with
  | nil => exact ⟨[], rfl⟩
  | cons c cs ih =>
      rcases ih with ⟨s, hs⟩
      rw [dropTrail]
      cases hr : dropTrail p cs with
      | nil =>
          by_cases hp : p c = true
          · simp only [hp, if_true]
            exact ⟨c :: cs, rfl⟩
          · simp only [hp, if_false]
            exact ⟨cs, rfl⟩
      | cons e t =>
          refine ⟨s, ?_⟩
          rw [hr] at hs
          rw [List.cons_append, hs]

theorem dropTrail_head (p : Char → Bool) (l : List Char) (d : Char)
    (h : (dropTrail p l).head? = some d) : l.head? = some d := by
  cases l with
  | nil => simp [dropTrail] at h
  | cons c cs =>
      rw [dropTrail] at h
      cases hr : dropTrail p cs with
      | nil =>
          rw [hr] at h
          by_cases hp : p c = true
          · simp [hp] at h
          · simp [hp] at h
            simp [h]
      | cons e t =>
          rw [hr] at h
          simp at h ⊢
          exact h

theorem dropTrail_getLast (p : Char → Bool) (l : List Char) (d : Char)
    (h : (dropTrail p l).getLast? = some d) : p d = false := by
  induction l with
  | nil => simp [dropTrail] at h
  | cons c cs ih =>
      rw [dropTrail] at h
      cases hr : dropTrail p cs with
      | nil =>
          rw [hr] at h
          by_cases hp : p c = true
          · simp [hp] at h
          · simp [hp] at h
            rw [← h]
            simpa using hp
      | cons e t =>
          rw [hr] at h
          rw [List.getLast?_cons_cons] at h
          apply ih
          rw [hr]
          cases t with
          | nil => exact h
          | cons f u => exact h

/-- The head of a collapsed list is non-whitespace whenever the input's head
is non-whitespace (the only whitespace emitted is a space standing for a
leading whitespace run). -/
theorem collapseWsL_head (m : List Char) (d : Char)
    (hm : ∀ c, m.head? = some c → pyWs c = false)
    (h : (collapseWsL m).head? = some d) : pyWs d = false := by
  cases m with
  | nil => simp [collapseWsL] at h
  | cons c cs =>
      have hc : pyWs c = false := hm c rfl
      rw [collapseWsL, hc] at h
      simp at h
      rw [← h]
      exact hc

/-- Whitespace collapsing leaves no two adjacent whitespace characters. -/
theorem collapseWsL_noDoubleWs (l : List Char) :
    noDoubleWs (collapseWsL l) = true := by
  cases l with
  | nil => simp [collapseWsL, noDoubleWs]
  | cons c cs =>
      rw [collapseWsL]
      by_cases hc : pyWs c = true
      · rw [hc]
        simp only [if_true]
        rw [noDoubleWs_cons]
        have hrec := collapseWsL_noDoubleWs (cs.dropWhile pyWs)
        rw [hrec]
        cases hh : (collapseWsL (cs.dropWhile pyWs)).head? with
        | none => rfl
        | some d =>
            have hd : pyWs d = false := by
              apply collapseWsL_head (cs.dropWhile pyWs) d _ hh
              intro e he
              have h2 := List.head?_dropWhile_not pyWs cs
              rw [he] at h2
              exact h2
            show (!(pyWs ' ' && pyWs d) && true) = true
            rw [hd]
            simp
      · rw [Bool.not_eq_true] at hc
        rw [hc, if_neg (by simp)]
        rw [noDoubleWs_cons]
        have hrec := collapseWsL_noDoubleWs cs
        rw [hrec]
        cases hh : (collapseWsL cs).head? with
        | none => rfl
        | some d =>
            show (!(pyWs c && pyWs d) && true) = true
            rw [hc]
            simp
termination_by l.length
decreasing_by
  all_goals
    simp only [List.length_cons]
    first
      | exact Nat.lt_succ_of_le (List.dropWhile_sublist _).length_le
      | omega

/-- `re.sub(r'\s+', ' ').strip()` yields a whitespace-normalised string. -/
theorem removeExtraWhitespaceStep_normalized (text : String) :
    wsNormalized (TextCleaner.removeExtraWhitespaceStep text) = true := by
  rw [wsNormalized, TextCleaner.removeExtraWhitespaceStep]
  show wsNormalizedL (pyStripL (collapseWsL text.data)) = true
  rw [wsNormalizedL]
  have hnd : noDoubleWs (pyStripL (collapseWsL text.data)) = true := by
    rw [pyStripL]
    rcases dropTrail_prefix pyWs ((collapseWsL text.data).dropWhile pyWs) with ⟨s, hs⟩
    apply noDoubleWs_prefix _ s
    rw [hs]
    exact noDoubleWs_dropWhile pyWs _ (collapseWsL_noDoubleWs text.data)
  rw [hnd]
  have hhead : (match (pyStripL (collapseWsL text.data)).head? with
      | some c => !pyWs c | none => true) = true := by
    cases hh : (pyStripL (collapseWsL text.data)).head? with
    | none => rfl
    | some c =>
        rw [pyStripL] at hh
        have hh2 := dropTrail_head pyWs _ c hh
        have h2 := List.head?_dropWhile_not pyWs (collapseWsL text.data)
        rw [hh2] at h2
        have h3 : pyWs c = false := h2
        show (!pyWs c) = true
        rw [h3]
        rfl
  have hlast : (match (pyStripL (collapseWsL text.data)).getLast? with
      | some c => !pyWs c | none => true) = true := by
    cases hh : (pyStripL (collapseWsL text.data)).getLast? with
    | none => rfl
    | some c =>
        rw [pyStripL] at hh
        have h2 := dropTrail_getLast pyWs _ c hh
        show (!pyWs c) = true
        rw [h2]
        rfl
  rw [hhead, hlast]
  rfl

/-- Tokens produced by whitespace splitting are nonempty and contain no
whitespace character. -/
theorem splitWsAcc_good (l : List Char) :
    ∀ cur, (∀ c ∈ cur, pyWs c = false) →
      ∀ m ∈ splitWsAcc l cur, m ≠ [] ∧ ∀ c ∈ m, pyWs c = false := by
  induction l with
  | nil =>
      intro cur hcur m hm
      cases cur with
      | nil =>
          have h0 : splitWsAcc [] ([] : List Char) = [] := rfl
          rw [h0] at hm
          simp at hm
      | cons d ds =>
          have h1 : splitWsAcc [] (d :: ds) = [(d :: ds).reverse] := rfl
          rw [h1] at hm
          rcases List.mem_singleton.mp hm with rfl
          refine ⟨by simp, ?_⟩
          intro c hc
          exact hcur c (List.mem_reverse.mp hc)
  | cons c cs ih =>
      intro cur hcur m hm
      by_cases hc : pyWs c = true
      · cases cur with
        | nil =>
            have h2 : splitWsAcc (c :: cs) [] =
                if pyWs c then splitWsAcc cs [] else splitWsAcc cs [c] := rfl
            rw [h2, if_pos hc] at hm
            exact ih [] (by simp) m hm
        | cons d ds =>
            have h3 : splitWsAcc (c :: cs) (d :: ds) =
                if pyWs c then (d :: ds).reverse :: splitWsAcc cs []
                else splitWsAcc cs (c :: d :: ds) := rfl
            rw [h3, if_pos hc] at hm
            rcases List.mem_cons.mp hm with hm | hm
            · subst hm
              refine ⟨by simp, ?_⟩
              intro e he
              exact hcur e (List.mem_reverse.mp he)
            · exact ih [] (by simp) m hm
      · have h4 : splitWsAcc (c :: cs) cur =
            if pyWs c then
              (match cur with
               | [] => splitWsAcc cs []
               | _ :: _ => cur.reverse :: splitWsAcc cs [])
            else splitWsAcc cs (c :: cur) := by
          cases cur <;> rfl
        rw [h4, if_neg hc] at hm
        refine ih (c :: cur) ?_ m hm
        intro e he
        rcases List.mem_cons.mp he with he | he
        · rw [he]
          simpa using hc
        · exact hcur e he

theorem splitWsL_good (l : List Char) :
    ∀ m ∈ splitWsL l, m ≠ [] ∧ ∀ c ∈ m, pyWs c = false :=
  splitWsAcc_good l [] (by simp)

/-- Tokens of `pySplit` are nonempty, whitespace-free strings. -/
theorem pySplit_good (s : String) :
    ∀ w ∈ pySplit s, w.data ≠ [] ∧ ∀ c ∈ w.data, pyWs c = false := by
  intro w hw
  rcases List.mem_map.mp hw with ⟨m, hm, hmk⟩
  rcases splitWsL_good s.data m hm with ⟨h1, h2⟩
  subst hmk
  exact ⟨h1, h2⟩

theorem noDoubleWs_of_no_ws (l : List Char)
    (h : ∀ c ∈ l, pyWs c = false) : noDoubleWs l = true := by
  induction l with
  | nil => rfl
  | cons a t ih =>
      rw [noDoubleWs_cons, ih (fun c hc => h c (by simp [hc]))]
      cases hh : t.head? with
      | none => rfl
      | some d =>
          show (!(pyWs a && pyWs d) && true) = true
          rw [h a (by simp)]
          simp

theorem noDoubleWs_append (l1 l2 : List Char)
    (h1 : noDoubleWs l1 = true) (h2 : noDoubleWs l2 = true)
    (hb : ∀ a b, l1.getLast? = some a → l2.head? = some b →
      (pyWs a && pyWs b) = false) :
    noDoubleWs (l1 ++ l2) = true := by
  induction l1 with
  | nil => simpa using h2
  | cons a t ih =>
      cases t with
      | nil =>
          simp only [List.cons_append, List.nil_append]
          rw [noDoubleWs_cons, h2]
          cases hh : l2.head? with
          | none => rfl
          | some b =>
              show (!(pyWs a && pyWs b) && true) = true
              rw [hb a b rfl hh]
              rfl
      | cons b u =>
          simp only [List.cons_append]
          rw [noDoubleWs_cons]
          have hab : (!(pyWs a && pyWs b) && noDoubleWs (b :: u)) = true := by
            rw [noDoubleWs] at h1
            exact h1
          rcases Bool.and_eq_true_iff.mp hab with ⟨hab1, hab2⟩
          have hih := ih hab2 (fun x y hx hy =>
            hb x y (by rw [List.getLast?_cons_cons]; exact hx) hy)
          rw [List.cons_append] at hih
          rw [hih]
          show (!(pyWs a && pyWs b) && true) = true
          rw [hab1]
          rfl

theorem wsNormalizedL_iff (l : List Char) :
    wsNormalizedL l = true ↔
      noDoubleWs l = true ∧ (∀ c, l.head? = some c → pyWs c = false) ∧
        (∀ c, l.getLast? = some c → pyWs c = false) := by
  rw [wsNormalizedL, Bool.and_eq_true, Bool.and_eq_true]
  constructor
  · rintro ⟨⟨ha, hh⟩, hl⟩
    refine ⟨ha, ?_, ?_⟩
    · intro c hc
      rw [hc] at hh
      simpa using hh
    · intro c hc
      rw [hc] at hl
      simpa using hl
  · rintro ⟨ha, hh, hl⟩
    refine ⟨⟨ha, ?_⟩, ?_⟩
    · cases hc : l.head? with
      | none => rfl
      | some c =>
          show (!pyWs c) = true
          rw [hh c hc]
          rfl
    · cases hc : l.getLast? with
      | none => rfl
      | some c =>
          show (!pyWs c) = true
          rw [hl c hc]
          rfl

theorem pyJoin_data_head (u : String) (rest : List String) (hu : u.data ≠ []) :
    (pyJoin " " (u :: rest)).data.head? = u.data.head? := by
  cases rest with
  | nil => rfl
  | cons v vs =>
      have hpj : pyJoin " " (u :: v :: vs) = u ++ " " ++ pyJoin " " (v :: vs) := rfl
      rw [hpj, String.data_append, String.data_append]
      cases hud : u.data with
      | nil => exact absurd hud hu
      | cons c cs => simp

/-- A space-join of nonempty, whitespace-free tokens is
whitespace-normalised. -/
theorem pyJoin_space_normalized (ts : List String)
    (hts : ∀ t ∈ ts, t.data ≠ [] ∧ ∀ c ∈ t.data, pyWs c = false) :
    wsNormalized (pyJoin " " ts) = true := by
  cases ts with
  | nil => rfl
  | cons t rest =>
      cases rest with
      | nil =>
          rcases hts t (by simp) with ⟨h1, h2⟩
          rw [wsNormalized]
          show wsNormalizedL t.data = true
          rw [wsNormalizedL_iff]
          exact ⟨noDoubleWs_of_no_ws _ h2,
            fun c hc => h2 c (List.mem_of_mem_head? (Option.mem_def.mpr hc)),
            fun c hc => h2 c (List.mem_of_mem_getLast? (Option.mem_def.mpr hc))⟩
      | cons v vs =>
          have hIH := pyJoin_space_normalized (v :: vs) (fun x hx => hts x (by simp [hx]))
          rcases hts t (by simp) with ⟨ht1, ht2⟩
          rw [wsNormalized] at hIH ⊢
          rw [wsNormalizedL_iff] at hIH
          obtain ⟨hIHnd, hIHh, hIHl⟩ := hIH
          have hpj : pyJoin " " (t :: v :: vs) = t ++ " " ++ pyJoin " " (v :: vs) := rfl
          rw [hpj]
          have hdata : (t ++ " " ++ pyJoin " " (v :: vs)).data =
              t.data ++ (' ' :: (pyJoin " " (v :: vs)).data) := by
            rw [String.data_append, String.data_append, List.append_assoc]
            rfl
          show wsNormalizedL (t ++ " " ++ pyJoin " " (v :: vs)).data = true
          rw [hdata, wsNormalizedL_iff]
          have hJne : (pyJoin " " (v :: vs)).data ≠ [] := by
            have hv := hts v (by simp)
            have hh := pyJoin_data_head v vs hv.1
            intro habs
            rw [habs] at hh
            cases hvd : v.data with
            | nil => exact hv.1 hvd
            | cons c cs =>
                rw [hvd] at hh
                simp at hh
          refine ⟨?_, ?_, ?_⟩
          · apply noDoubleWs_append
            · exact noDoubleWs_of_no_ws _ ht2
            · rw [noDoubleWs_cons, hIHnd]
              cases hh : (pyJoin " " (v :: vs)).data.head? with
              | none => rfl
              | some d =>
                  show (!(pyWs ' ' && pyWs d) && true) = true
                  rw [hIHh d hh]
                  simp
            · intro a b ha hb2
              rw [ht2 a (List.mem_of_mem_getLast? (Option.mem_def.mpr ha))]
              rfl
          · intro c hc
            rw [List.head?_append] at hc
            cases hh : t.data.head? with
            | none =>
                cases htd : t.data with
                | nil => exact absurd htd ht1
                | cons x xs =>
                    rw [htd] at hh
                    simp at hh
            | some x =>
                rw [hh] at hc
                simp only [Option.or_some] at hc
                have hxc : x = c := by
                  cases hc
                  rfl
                rw [← hxc]
                exact ht2 x (List.mem_of_mem_head? (Option.mem_def.mpr hh))
          · intro c hc
            rw [List.getLast?_append_of_ne_nil _ (by simp)] at hc
            cases hJd : (pyJoin " " (v :: vs)).data with
            | nil => exact absurd hJd hJne
            | cons y ys =>
                rw [hJd] at hc
                rw [List.getLast?_cons_cons] at hc
                apply hIHl
                rw [hJd]
                exact hc
termination_by ts.length

/-- A space-join of any filtered subset of a string's `split()` tokens is
whitespace-normalised. -/
theorem joinFilter_normalized (p : String → Bool) (s : String) :
    wsNormalized (pyJoin " " ((pySplit s).filter p)) = true := by
  apply pyJoin_space_normalized
  intro t ht
  exact pySplit_good s t (List.mem_filter.mp ht).1

/-- **C9** — For every configuration of `TextCleaner` (including one with
all cleaning options disabled) and every input string, `clean` returns a
whitespace-normalised string: no leading or trailing whitespace and no two
adjacent whitespace characters.  Whitespace collapsing
(`_remove_extra_whitespace`) runs unconditionally, and the optional
stopword/single-token steps re-join `split()` tokens with single spaces. -/
theorem textCleaner_clean_normalized (tc : TextCleaner) (text : String) :
    wsNormalized (tc.clean text) = true := by
  rw [TextCleaner.clean]
  by_cases h6 : tc.remove_single = true
  · rw [if_pos h6, TextCleaner.removeSingleStep]
    exact joinFilter_normalized _ _
  · rw [if_neg h6]
    by_cases h5 : tc.remove_stop = true
    · rw [if_pos h5, TextCleaner.removeStopStep]
      exact joinFilter_normalized _ _
    · rw [if_neg h5]
      exact removeExtraWhitespaceStep_normalized _

/-! ## Term-frequency scoring (`score_tf`, claim C7) -/

/-- Modelled from the spec: the term-frequency scorer `dictionary.score_tf`
lives in `Utils/dictionary.py`, which is missing from the source tree (only
its caller `score.py`'s `score_tf` wrapper is present).  Per the spec,
`scoreTermFrequency(documents, documentIDs, dictionary)` emits one Score
Record per document and, for each document and category, sums the raw
occurrence counts of that category's words in the document; occurrences are
counted over the whitespace-split tokens of the document text. -/
def score_tf (documents doc_ids : List String)
    (expanded_dict : List (String × List String)) :
    List (String × List (String × Nat)) :=
  (documents.zip doc_ids).map (fun p =>
    (p.2, expanded_dict.map (fun cat =>
      (cat.1, cat.2.foldl (fun acc w => acc + (pySplit p.1).count w) 0))))

theorem foldl_add_count (tk : List String) (ws : List String) (acc : Nat) :
    ws.foldl (fun a w => a + tk.count w) acc =
      acc + (ws.map (fun w => tk.count w)).sum := by
  induction ws generalizing acc with
  | nil => simp
  | cons w ws ih =>
      rw [List.foldl_cons, ih, List.map_cons, List.sum_cons]
      omega

/-- **C7** — One Score Record per document; each category's score is the sum
over the category's dictionary words of that word's raw occurrence count in
the document; in particular the document `"motivated motivated sale"`
scored against `{"Urgency": ["motivated"]}` receives Urgency score 2. -/
theorem score_tf_spec (documents doc_ids : List String)
    (expanded_dict : List (String × List String))
    (h : documents.length = doc_ids.length) :
    (score_tf documents doc_ids expanded_dict).length = documents.length ∧
      score_tf documents doc_ids expanded_dict =
        (documents.zip doc_ids).map (fun p =>
          (p.2, expanded_dict.map (fun cat =>
            (cat.1, (cat.2.map (fun w => (pySplit p.1).count w)).sum)))) ∧
      score_tf ["motivated motivated sale"] ["d1"] [("Urgency", ["motivated"])] =
        [("d1", [("Urgency", 2)])] := by
  refine ⟨?_, ?_, ?_⟩
  · rw [score_tf, List.length_map, List.length_zip, h, Nat.min_self]
  · rw [score_tf]
    apply List.map_congr_left
    intro p hp
    congr 1
    apply List.map_congr_left
    intro cat hcat
    congr 1
    rw [foldl_add_count]
    omega
  · decide

/-- Witness for `score_tf_spec` at the spec's example input. -/
theorem score_tf_spec_witness :
    (["motivated motivated sale"] : List String).length =
        (["d1"] : List String).length ∧
      ((score_tf ["motivated motivated sale"] ["d1"]
            [("Urgency", ["motivated"])]).length =
          (["motivated motivated sale"] : List String).length ∧
        score_tf ["motivated motivated sale"] ["d1"] [("Urgency", ["motivated"])] =
          ((["motivated motivated sale"] : List String).zip ["d1"]).map (fun p =>
            (p.2, [("Urgency", ["motivated"])].map
              (fun cat : String × List String =>
                (cat.1, (cat.2.map (fun w => (pySplit p.1).count w)).sum)))) ∧
        score_tf ["motivated motivated sale"] ["d1"] [("Urgency", ["motivated"])] =
          [("d1", [("Urgency", 2)])]) :=
  ⟨rfl, score_tf_spec ["motivated motivated sale"] ["d1"] [("Urgency", ["motivated"])] rfl⟩

/-- `clean_file` (`clean.py`): the cleaning stage counts the input lines,
fabricates the string ids `"0", "1", ...`, and runs the chunked transformer
with `output_index_file = None` and the configured cleaner as the per-line
transform (chunk size 20000). -/
def clean_file (tc : TextCleaner) (inputLines : List String) (st : FileState) :
    FileState × Bool :=
  process_large_file inputLines ((List.range inputLines.length).map toString)
    (fun line id => some (tc.clean line, id)) false 20000 none st
